import Mathlib

/-!
Verification of the clause-highlighting core of the Loan-Lens repository
(frontend/src/components/PdfViewer.tsx, second revision in the file, plus
the Dashboard / DocumentContext collaborators).

JS strings are modelled as lists of UTF-16 code units (natural numbers);
all code-unit classes used by the source regexes are spelled out on Nat.
The DOM side effects (classList mutation, scrolling, the page ring) are
modelled as explicit state in a small event-loop semantics mirroring the
React component: this captures the setTimeout scheduling, the absence of
clearTimeout, and the nonce-driven effect re-runs.
-/

namespace LoanLens

/-- A JS string: list of UTF-16 code units. All characters appearing in the
source are in the BMP, so one code unit per character. -/
abbrev Str := List Nat

/-- Embed a Lean string literal as code units (BMP only, which holds for
every literal used below). -/
def strLit (s : String) : Str := s.data.map Char.toNat

/-! ### Text Normalizer (PdfViewer.tsx, function normalize, lines 127-135) -/

/-- Code-unit class of the JS regex whitespace \s (ASCII part; all inputs
considered here are ASCII or currency symbols, none of the exotic Unicode
spaces). -/
def isWsN (n : Nat) : Bool :=
  n = 32 || n = 9 || n = 10 || n = 11 || n = 12 || n = 13

/-- Code-unit class of the JS regex word class \w (no u flag: ASCII only). -/
def isWordN (n : Nat) : Bool :=
  (48 ≤ n && n ≤ 57) || (65 ≤ n && n ≤ 90) || (97 ≤ n && n ≤ 122) || n = 95

/-- The currency symbols removed by the source: ₹ $ € £ ¥. -/
def isCurrencyN (n : Nat) : Bool :=
  n = 8377 || n = 36 || n = 8364 || n = 163 || n = 165

/-- Code units kept by the strip stage: word chars, whitespace, . % ( ) - . -/
def isKeptN (n : Nat) : Bool :=
  isWordN n || isWsN n || n = 46 || n = 37 || n = 40 || n = 41 || n = 45

/-- JS String.prototype.toLowerCase restricted to the ASCII letters, which is
all the lowering the source ever relies on. -/
def jsToLower (n : Nat) : Nat := if 65 ≤ n ∧ n ≤ 90 then n + 32 else n

/-- replace(ellipsis regex, empty): delete every occurrence of three
consecutive full stops, scanning left to right as the JS global replace
does (code unit 46 is the full stop). -/
def removeEllipsis : Str → Str
  | [] => []
  | [a] => [a]
  | [a, b] => [a, b]
  | a :: b :: c :: rest =>
    if a = 46 ∧ b = 46 ∧ c = 46 then removeEllipsis rest
    else a :: removeEllipsis (b :: c :: rest)

/-- Does the string contain three consecutive full stops. -/
def hasEllipsis : Str → Bool
  | a :: b :: c :: rest => (a = 46 && b = 46 && c = 46) || hasEllipsis (b :: c :: rest)
  | _ => false

/-- replace(currency regex, empty). -/
def removeCurrency (l : Str) : Str := l.filter (fun c => !isCurrencyN c)

/-- replace of every char outside the kept class with the empty string. -/
def keepAllowed (l : Str) : Str := l.filter isKeptN

/-- One pass of replace(whitespace-run regex, single space): the Bool flag
records whether the scanner is inside a whitespace run that has already
emitted its single replacement space. -/
def collapseAux : Bool → Str → Str
  | _, [] => []
  | inRun, c :: rest =>
    if isWsN c then
      if inRun then collapseAux true rest else 32 :: collapseAux true rest
    else c :: collapseAux false rest

/-- replace(whitespace-run regex, single space). -/
def collapseWs (l : Str) : Str := collapseAux false l

/-- Drop trailing whitespace (the right half of JS trim). -/
def dropTrailingWs : Str → Str
  | [] => []
  | c :: rest =>
    if (dropTrailingWs rest).isEmpty && isWsN c then []
    else c :: dropTrailingWs rest

/-- JS String.prototype.trim. -/
def trimWs (l : Str) : Str := dropTrailingWs (l.dropWhile isWsN)

/-- normalize (PdfViewer.tsx lines 127-135): lower-case, drop ellipses,
drop currency symbols, strip everything outside the kept class, collapse
whitespace runs to a single space, trim. -/
def normalize (s : Str) : Str :=
  trimWs (collapseWs (keepAllowed (removeCurrency (removeEllipsis (s.map jsToLower)))))

/-! ### String utilities mirroring the JS operations used by the engine -/

/-- Is p a prefix of l (code-unit equality). -/
def isPrefOf : Str → Str → Bool
  | [], _ => true
  | _ :: _, [] => false
  | a :: as, b :: bs => a = b && isPrefOf as bs

/-- JS String.prototype.indexOf: first index at which pat occurs in hay,
none when it does not occur (the source compares the result with -1). -/
def jsIndexOf : Str → Str → Option Nat
  | hay, pat =>
    if isPrefOf pat hay then some 0
    else
      match hay with
      | [] => none
      | _ :: rest => (jsIndexOf rest pat).map (· + 1)

/-- JS String.prototype.includes. -/
def containsSub (hay pat : Str) : Bool := (jsIndexOf hay pat).isSome

/-- JS Array.prototype.join with a single-space separator. -/
def joinWithSpace : List Str → Str
  | [] => []
  | [t] => t
  | t :: rest => t ++ 32 :: joinWithSpace rest

/-- JS String.prototype.split on the single-space separator (split " "):
adjacent separators and separators at the ends yield empty chunks. -/
def splitOnSpace : Str → List Str
  | [] => [[]]
  | c :: rest =>
    if c = 32 then [] :: splitOnSpace rest
    else
      match splitOnSpace rest with
      | [] => [[c]]
      | w :: ws => (c :: w) :: ws

/-- split(" ").filter(Boolean): the whitespace-delimited words of a string
(the empty string is falsy in JS, so empty chunks are dropped). -/
def snippetWords (s : Str) : List Str := (splitOnSpace s).filter (fun w => !w.isEmpty)

/-! ### Page text index (the offset table implicit in the cursor arithmetic
of applyHighlightToRange, and the data model of the spec, section 4.2) -/

/-- Half-open ranges occupied by each leaf text in the single-space join,
starting at the given cursor. -/
def leafRangesAux (c : Nat) : List Str → List (Nat × Nat)
  | [] => []
  | t :: rest => (c, c + t.length) :: leafRangesAux (c + t.length + 1) rest

/-- The offset table of a page: for each leaf, the half-open code-unit range
it occupies in the single-space join of the leaf texts. -/
def leafRanges (ts : List Str) : List (Nat × Nat) := leafRangesAux 0 ts

/-! ### Highlight applier (applyHighlightToRange, lines 149-171) -/

/-- The cursor walk of applyHighlightToRange: emit the index of every span
whose window overlaps the match window, advancing the cursor by the span
length plus one for the join space. -/
def applyHighlightAux (mI mE : Nat) : List Str → Nat → Nat → List Nat
  | [], _, _ => []
  | t :: rest, cursor, idx =>
    if cursor + t.length > mI && cursor < mE then
      idx :: applyHighlightAux mI mE rest (cursor + t.length + 1) (idx + 1)
    else applyHighlightAux mI mE rest (cursor + t.length + 1) (idx + 1)

/-- applyHighlightToRange: the indices of the spans that receive the
pdf-highlight class for the match window, in reading order. The source
also returns the first of them; that is head? of this list. -/
def applyHighlightToRange (ts : List Str) (mI mE : Nat) : List Nat :=
  applyHighlightAux mI mE ts 0 0

/-- The set of marked leaves as the spec words it: every leaf whose
recorded range (start, end) satisfies end > matchIndex and
start < matchEnd, collected over the offset table starting at index idx. -/
def overlapIndicesAux (mI mE : Nat) : List (Nat × Nat) → Nat → List Nat
  | [], _ => []
  | r :: rest, idx =>
    if r.2 > mI && r.1 < mE then idx :: overlapIndicesAux mI mE rest (idx + 1)
    else overlapIndicesAux mI mE rest (idx + 1)

/-- Spec-side description of the marked set: indices of the offset-table
entries overlapping the match window. -/
def overlapIndices (rs : List (Nat × Nat)) (mI mE : Nat) : List Nat :=
  overlapIndicesAux mI mE rs 0

/-! ### Match engine (highlightSnippetInTextLayer, lines 181-245) -/

inductive Tier where
  | FULL
  | PARTIAL
  | TOKEN
  | NONE
deriving DecidableEq, Repr

structure MatchResult where
  marked : List Nat
  anchor : Option Nat
  tier : Tier
deriving DecidableEq, Repr

/-- The normalized texts of the page spans. -/
def normTexts (spanTexts : List Str) : List Str := spanTexts.map normalize

/-- The normalized page concatenation: normalized span texts joined by a
single space. -/
def normPage (spanTexts : List Str) : Str := joinWithSpace (normTexts spanTexts)

/-- Layer 3 marking: indices of spans whose normalized text contains at
least one key token. -/
def tokenMarksAux (toks : List Str) : List Str → Nat → List Nat
  | [], _ => []
  | t :: rest, idx =>
    if toks.any (fun tok => containsSub t tok) then idx :: tokenMarksAux toks rest (idx + 1)
    else tokenMarksAux toks rest (idx + 1)

def tokenMarks (nts : List Str) (toks : List Str) : List Nat := tokenMarksAux toks nts 0

/-- The layer-2 search string: the first 15 words of the normalized
snippet, joined by single spaces. -/
def engineShort (snippet : Str) : Str :=
  joinWithSpace ((snippetWords (normalize snippet)).take 15)

/-- The layer-3 key tokens: the first 5 words of the normalized snippet
longer than 4 code units. -/
def keyTokensOf (snippet : Str) : List Str :=
  ((snippetWords (normalize snippet)).filter (fun w => 4 < w.length)).take 5

/-- Layer 3 of the engine: return NONE when no key token exists, otherwise
mark every span containing a key token and return the first such span. -/
def tokenStage (spanTexts : List Str) (snippet : Str) : MatchResult :=
  if (keyTokensOf snippet).length = 0 then ⟨[], none, Tier.NONE⟩
  else
    ⟨tokenMarks (normTexts spanTexts) (keyTokensOf snippet),
      (tokenMarks (normTexts spanTexts) (keyTokensOf snippet)).head?,
      Tier.TOKEN⟩

/-- highlightSnippetInTextLayer on a page whose text layer holds the given
span texts: the three-layer match. Returns the marked span indices, the
returned element (first marked span) and the layer that produced them. -/
def matchEngine (spanTexts : List Str) (snippet : Str) : MatchResult :=
  if spanTexts.length = 0 then ⟨[], none, Tier.NONE⟩
  else
    match jsIndexOf (normPage spanTexts) (normalize snippet) with
    | some fullIndex =>
      ⟨applyHighlightToRange (normTexts spanTexts) fullIndex
          (fullIndex + (normalize snippet).length),
        (applyHighlightToRange (normTexts spanTexts) fullIndex
          (fullIndex + (normalize snippet).length)).head?,
        Tier.FULL⟩
    | none =>
      if 5 < (snippetWords (normalize snippet)).length then
        match jsIndexOf (normPage spanTexts) (engineShort snippet) with
        | some partialIndex =>
          ⟨applyHighlightToRange (normTexts spanTexts) partialIndex
              (partialIndex + (engineShort snippet).length),
            (applyHighlightToRange (normTexts spanTexts) partialIndex
              (partialIndex + (engineShort snippet).length)).head?,
            Tier.PARTIAL⟩
        | none => tokenStage spanTexts snippet
      else tokenStage spanTexts snippet

/-! ### Navigation coordinator (highlightClause lines 286-317, the effect at
lines 319-330, clearHighlights lines 138-142, Dashboard handleClauseClick).

The React scheduling is modelled as an explicit event loop: a set event is
the context holding a new highlightTarget value (the effect re-runs unless
the value is identical, which models Object.is bail-out on re-setting the
same object; the timestamp nonce of handleClauseClick makes structurally
fresh requests distinguishable), and a fire event delivers the oldest
pending setTimeout callback. highlightClause never cancels the timeout it
schedules and the effect installs no cleanup, so pending entries survive a
superseding target. -/

/-- A highlight request as built by Dashboard.handleClauseClick: page,
section label, optional snippet, and the Date.now() nonce that makes a
fresh request a fresh object. -/
structure HighlightTarget where
  page : Nat
  section_ : Str
  snippet : Option Str
  nonce : Nat
deriving DecidableEq, Repr

/-- A pending setTimeout callback of highlightClause: it captured the page
and snippet of the target that scheduled it. -/
structure PendingTimer where
  page : Nat
  snippet : Option Str
deriving DecidableEq, Repr

/-- A rendered page: none models a page whose text layer is absent, some
spans a mounted text layer with the given span raw texts. -/
abbrev PageT := Option (List Str)

/-- The mutable visual and scheduling state of the viewer. marked is the
set of (page, span index) pairs currently carrying the pdf-highlight
class; highlightPage the page-level fallback ring; pending the
un-cancelled setTimeout queue; the counters record the observable side
effects (clearHighlights calls, scrollIntoView calls, timer bodies that
reached their page). -/
structure CoordState where
  marked : List (Nat × Nat)
  highlightPage : Option Nat
  pending : List PendingTimer
  clearCount : Nat
  scrollCount : Nat
  applyCount : Nat
deriving DecidableEq, Repr

/-- The whole system: the context value (current highlightTarget) plus the
viewer state. -/
structure Sys where
  current : Option HighlightTarget
  coord : CoordState
deriving DecidableEq, Repr

def sysInit : Sys := ⟨none, ⟨[], none, [], 0, 0, 0⟩⟩

/-- pageRefs.current lookup: pages are numbered from 1; any other key is
undefined. -/
def getPage (doc : List PageT) (page : Nat) : Option PageT :=
  if 1 ≤ page then doc.get? (page - 1) else none

/-- The body of the setTimeout callback between finding the container and
scrolling: what highlightSnippetInTextLayer returns for this page and
snippet. An absent or empty snippet is falsy, so the engine is not called;
a missing text layer returns null (modelled as the NONE result). -/
def pageMatch (pg : PageT) (snippet : Option Str) : MatchResult :=
  match snippet with
  | none => ⟨[], none, Tier.NONE⟩
  | some sn =>
    if sn.isEmpty then ⟨[], none, Tier.NONE⟩
    else
      match pg with
      | none => ⟨[], none, Tier.NONE⟩
      | some spans => matchEngine spans sn

/-- Deliver one setTimeout callback: if the page container is gone the
callback returns with no visual change at all; otherwise it applies the
match result, scrolling to the anchor on success and setting the
page-level ring on a null result. -/
def runTimer (doc : List PageT) (tm : PendingTimer) (st : CoordState) : CoordState :=
  match getPage doc tm.page with
  | none => st
  | some pg =>
    match (pageMatch pg tm.snippet).anchor with
    | some _ =>
      { st with
          marked := st.marked ++ (pageMatch pg tm.snippet).marked.map (fun i => (tm.page, i)),
          scrollCount := st.scrollCount + 1,
          applyCount := st.applyCount + 1 }
    | none =>
      { st with
          marked := st.marked ++ (pageMatch pg tm.snippet).marked.map (fun i => (tm.page, i)),
          highlightPage := some tm.page,
          applyCount := st.applyCount + 1 }

/-- highlightClause(page, snippet): clearHighlights, drop the ring, jump to
the page, and schedule the 400 ms callback. The previously pending
callbacks are left in the queue: the source stores no timer id and the
effect returns no cleanup. -/
def newTarget (doc : List PageT) (st : CoordState) (t : HighlightTarget) : CoordState :=
  { marked := [],
    highlightPage := none,
    pending := st.pending ++ [⟨t.page, t.snippet⟩],
    clearCount := st.clearCount + 1,
    scrollCount := st.scrollCount + (if (getPage doc t.page).isSome then 1 else 0),
    applyCount := st.applyCount }

/-- The effect branch for a cleared target: clearHighlights and drop the
ring. -/
def clearTarget (st : CoordState) : CoordState :=
  { st with marked := [], highlightPage := none, clearCount := st.clearCount + 1 }

/-- Events: the context receives a new highlightTarget value, or the oldest
pending timer fires. -/
inductive Ev where
  | set (tgt : Option HighlightTarget)
  | fire
deriving DecidableEq, Repr

/-- One scheduler step. Setting a value identical to the current one is the
React bail-out (same object, effect does not re-run); any other value
re-runs the effect of PdfViewer lines 319-330. -/
def dispatch (doc : List PageT) (st : Sys) : Ev → Sys
  | .set tgt =>
    if st.current = tgt then st
    else
      ⟨tgt,
        match tgt with
        | some t => newTarget doc st.coord t
        | none => clearTarget st.coord⟩
  | .fire =>
    match st.coord.pending with
    | [] => st
    | tm :: rest => ⟨st.current, runTimer doc tm { st.coord with pending := rest }⟩

/-- Run an event sequence from the initial system state. -/
def runEvents (doc : List PageT) (evs : List Ev) : Sys :=
  evs.foldl (dispatch doc) sysInit

/-! ### Shape invariants of normalized strings -/

/-- Every whitespace code unit of the string is the plain space 32. -/
def wsOnly32 (l : Str) : Bool := l.all (fun c => !isWsN c || c = 32)

/-- No two adjacent whitespace code units. -/
def noAdjWs : Str → Bool
  | c1 :: c2 :: rest => (!(isWsN c1 && isWsN c2)) && noAdjWs (c2 :: rest)
  | _ => true

/-- The first code unit, if any, is not whitespace. -/
def headNotWs : Str → Bool
  | [] => true
  | c :: _ => !isWsN c

/-- The last code unit, if any, is not whitespace. -/
def lastNotWs : Str → Bool
  | [] => true
  | [c] => !isWsN c
  | _ :: c :: rest => lastNotWs (c :: rest)

theorem noAdjWs_tail {c : Nat} {l : Str} (h : noAdjWs (c :: l) = true) :
    noAdjWs l = true := by
  cases l with
  | nil => rfl
  | cons d rest =>
    have h2 := h
    simp only [noAdjWs, Bool.and_eq_true] at h2
    exact h2.2

theorem noAdjWs_cons_of_headNotWs {c : Nat} {l : Str} (hl : noAdjWs l = true)
    (hh : headNotWs l = true) : noAdjWs (c :: l) = true := by
  cases l with
  | nil => rfl
  | cons d rest =>
    simp only [headNotWs, Bool.not_eq_true'] at hh
    simp [noAdjWs, hh, hl]

theorem noAdjWs_cons_of_notWs {c : Nat} {l : Str} (hc : isWsN c = false)
    (hl : noAdjWs l = true) : noAdjWs (c :: l) = true := by
  cases l with
  | nil => rfl
  | cons d rest => simp [noAdjWs, hc, hl]

theorem headNotWs_of_noAdjWs_consWs {c : Nat} {l : Str} (hc : isWsN c = true)
    (h : noAdjWs (c :: l) = true) : headNotWs l = true := by
  cases l with
  | nil => rfl
  | cons d rest =>
    simp only [noAdjWs, Bool.and_eq_true, Bool.not_eq_true', Bool.and_eq_false_iff] at h
    rcases h.1 with h1 | h1
    · rw [hc] at h1; cases h1
    · simp [headNotWs, h1]

theorem lastNotWs_cons_of_ne {c : Nat} {l : Str} (hl : l ≠ []) :
    lastNotWs (c :: l) = lastNotWs l := by
  cases l with
  | nil => cases hl rfl
  | cons d rest => rfl

/-- The collapse pass yields a string whose whitespace is exactly single
spaces: whitespace only as code unit 32, never two in a row, and in the
run-pending state never at the head. -/
theorem collapseAux_inv (l : Str) : ∀ b : Bool,
    wsOnly32 (collapseAux b l) = true ∧ noAdjWs (collapseAux b l) = true ∧
      headNotWs (collapseAux true l) = true := by
  induction l with
  | nil => intro b; exact ⟨rfl, rfl, rfl⟩
  | cons c rest ih =>
    intro b
    by_cases hc : isWsN c = true
    · have htail := ih true
      have hhead : headNotWs (collapseAux true rest) = true := (ih true).2.2
      have hws : wsOnly32 (32 :: collapseAux true rest) = true := by
        simpa [wsOnly32, List.all_cons, isWsN] using htail.1
      have hadj : noAdjWs (32 :: collapseAux true rest) = true :=
        noAdjWs_cons_of_headNotWs htail.2.1 hhead
      cases b with
      | false => exact ⟨by simpa [collapseAux, hc] using hws,
          by simpa [collapseAux, hc] using hadj,
          by simpa [collapseAux, hc] using hhead⟩
      | true => exact ⟨by simpa [collapseAux, hc] using htail.1,
          by simpa [collapseAux, hc] using htail.2.1,
          by simpa [collapseAux, hc] using hhead⟩
    · have hc2 : isWsN c = false := by simpa using hc
      have htail := ih false
      have hws : wsOnly32 (c :: collapseAux false rest) = true := by
        simp [wsOnly32, List.all_cons, hc2]
        simpa [wsOnly32] using htail.1
      have hadj : noAdjWs (c :: collapseAux false rest) = true :=
        noAdjWs_cons_of_notWs hc2 htail.2.1
      have hhd : headNotWs (c :: collapseAux false rest) = true := by
        simp [headNotWs, hc2]
      exact ⟨by simpa [collapseAux, hc2] using hws,
        by simpa [collapseAux, hc2] using hadj,
        by simpa [collapseAux, hc2] using hhd⟩

theorem headNotWs_dropWhile (l : Str) : headNotWs (l.dropWhile isWsN) = true := by
  induction l with
  | nil => rfl
  | cons c rest ih =>
    by_cases hc : isWsN c = true
    · simpa [List.dropWhile, hc] using ih
    · have hc2 : isWsN c = false := by simpa using hc
      simp [List.dropWhile, hc2, headNotWs]

theorem noAdjWs_dropWhile {l : Str} (h : noAdjWs l = true) :
    noAdjWs (l.dropWhile isWsN) = true := by
  induction l with
  | nil => rfl
  | cons c rest ih =>
    by_cases hc : isWsN c = true
    · simpa [List.dropWhile, hc] using ih (noAdjWs_tail h)
    · have hc2 : isWsN c = false := by simpa using hc
      simpa [List.dropWhile, hc2] using h

theorem lastNotWs_dropWhile {l : Str} (h : lastNotWs l = true) :
    lastNotWs (l.dropWhile isWsN) = true := by
  induction l with
  | nil => rfl
  | cons c rest ih =>
    by_cases hc : isWsN c = true
    · cases rest with
      | nil => simp [lastNotWs, hc] at h
      | cons d r2 =>
        have := lastNotWs_cons_of_ne (c := c) (l := d :: r2) (by simp)
        rw [this] at h
        simpa [List.dropWhile, hc] using ih h
    · have hc2 : isWsN c = false := by simpa using hc
      simpa [List.dropWhile, hc2] using h

theorem mem_dropWhileWs {x : Nat} {l : Str} (h : x ∈ l.dropWhile isWsN) : x ∈ l := by
  induction l with
  | nil => simp at h
  | cons c rest ih =>
    by_cases hc : isWsN c = true
    · simp only [List.dropWhile, hc] at h
      exact List.mem_cons_of_mem c (ih h)
    · have hc2 : isWsN c = false := by simpa using hc
      simpa [List.dropWhile, hc2] using h

theorem dropTrailingWs_shape (a : Nat) (r : Str) :
    dropTrailingWs (a :: r) = [] ∨ dropTrailingWs (a :: r) = a :: dropTrailingWs r := by
  simp only [dropTrailingWs]
  split
  · exact Or.inl rfl
  · exact Or.inr rfl

theorem lastNotWs_dropTrailingWs (l : Str) : lastNotWs (dropTrailingWs l) = true := by
  induction l with
  | nil => rfl
  | cons c rest ih =>
    simp only [dropTrailingWs]
    split
    · rfl
    · rename_i hcond
      cases hdtw : dropTrailingWs rest with
      | nil =>
        have hc : isWsN c = false := by
          by_contra hc2
          simp only [Bool.not_eq_false] at hc2
          simp [hdtw, hc2] at hcond
        simp [lastNotWs, hc]
      | cons d r2 =>
        rw [lastNotWs_cons_of_ne (by simp)]
        rw [← hdtw]
        exact ih

theorem headNotWs_dropTrailingWs {l : Str} (h : headNotWs l = true) :
    headNotWs (dropTrailingWs l) = true := by
  cases l with
  | nil => rfl
  | cons c rest =>
    rcases dropTrailingWs_shape c rest with h2 | h2
    · rw [h2]; rfl
    · rw [h2]; simpa [headNotWs] using h

theorem noAdjWs_dropTrailingWs : ∀ {l : Str}, noAdjWs l = true →
    noAdjWs (dropTrailingWs l) = true := by
  intro l
  induction l with
  | nil => intro _; rfl
  | cons c rest ih =>
    intro h
    rcases dropTrailingWs_shape c rest with h2 | h2
    · rw [h2]; rfl
    · rw [h2]
      have htail : noAdjWs (dropTrailingWs rest) = true := ih (noAdjWs_tail h)
      cases rest with
      | nil => simp [dropTrailingWs, noAdjWs]
      | cons e r3 =>
        rcases dropTrailingWs_shape e r3 with h3 | h3
        · rw [h3]; simp [noAdjWs]
        · rw [h3] at htail ⊢
          have hpair : (!(isWsN c && isWsN e)) = true := by
            have h4 := h
            simp only [noAdjWs, Bool.and_eq_true] at h4
            exact h4.1
          simp only [noAdjWs, Bool.and_eq_true]
          exact ⟨hpair, htail⟩

theorem mem_dropTrailingWs {x : Nat} : ∀ {l : Str}, x ∈ dropTrailingWs l → x ∈ l := by
  intro l
  induction l with
  | nil => intro h; simp [dropTrailingWs] at h
  | cons c rest ih =>
    intro h
    rcases dropTrailingWs_shape c rest with h2 | h2
    · rw [h2] at h; simp at h
    · rw [h2] at h
      rcases List.mem_cons.mp h with h3 | h3
      · exact h3 ▸ List.mem_cons_self c rest
      · exact List.mem_cons_of_mem c (ih h3)

theorem mem_collapseAux {x : Nat} : ∀ {l : Str} {b : Bool},
    x ∈ collapseAux b l → x ∈ l ∨ x = 32 := by
  intro l
  induction l with
  | nil => intro b h; simp [collapseAux] at h
  | cons c rest ih =>
    intro b h
    by_cases hc : isWsN c = true
    · cases b with
      | true =>
        simp only [collapseAux, hc, if_true] at h
        rcases ih h with h2 | h2
        · exact Or.inl (List.mem_cons_of_mem c h2)
        · exact Or.inr h2
      | false =>
        simp only [collapseAux, hc, if_true] at h
        rcases List.mem_cons.mp h with h2 | h2
        · exact Or.inr h2
        · rcases ih h2 with h3 | h3
          · exact Or.inl (List.mem_cons_of_mem c h3)
          · exact Or.inr h3
    · have hc2 : isWsN c = false := by simpa using hc
      simp only [collapseAux, hc2, Bool.false_eq_true, if_false] at h
      rcases List.mem_cons.mp h with h2 | h2
      · exact Or.inl (h2 ▸ List.mem_cons_self c rest)
      · rcases ih h2 with h3 | h3
        · exact Or.inl (List.mem_cons_of_mem c h3)
        · exact Or.inr h3

theorem mem_removeEllipsis (x : Nat) : ∀ (l : Str), x ∈ removeEllipsis l → x ∈ l
  | [] => by simp [removeEllipsis]
  | [a] => by simp [removeEllipsis]
  | [a, b] => by simp [removeEllipsis]
  | a :: b :: c :: rest => by
    simp only [removeEllipsis]
    split
    · intro h
      have h2 := mem_removeEllipsis x rest h
      exact List.mem_cons_of_mem _ (List.mem_cons_of_mem _ (List.mem_cons_of_mem _ h2))
    · intro h
      rcases List.mem_cons.mp h with h1 | h1
      · exact h1 ▸ List.mem_cons_self _ _
      · exact List.mem_cons_of_mem _ (mem_removeEllipsis x (b :: c :: rest) h1)

theorem jsToLower_fix (y : Nat) : jsToLower (jsToLower y) = jsToLower y := by
  simp only [jsToLower]
  split_ifs <;> omega

theorem map_fix {f : Nat → Nat} : ∀ {l : Str}, (∀ x ∈ l, f x = x) → l.map f = l := by
  intro l
  induction l with
  | nil => intro _; rfl
  | cons c rest ih =>
    intro h
    simp only [List.map_cons]
    rw [h c (List.mem_cons_self c rest), ih (fun x hx => h x (List.mem_cons_of_mem c hx))]

theorem removeEllipsis_fix : ∀ (l : Str), hasEllipsis l = false → removeEllipsis l = l
  | [] => by intro _; rfl
  | [a] => by intro _; rfl
  | [a, b] => by intro _; rfl
  | a :: b :: c :: rest => by
    intro h
    simp only [hasEllipsis, Bool.or_eq_false_iff] at h
    simp only [removeEllipsis]
    split
    · rename_i hcond
      exfalso
      rcases hcond with ⟨h46a, h46b, h46c⟩
      simp [h46a, h46b, h46c] at h
    · rw [removeEllipsis_fix (b :: c :: rest) h.2]

theorem collapseAux_fix : ∀ (l : Str), wsOnly32 l = true → noAdjWs l = true →
    collapseAux false l = l ∧ (headNotWs l = true → collapseAux true l = l) := by
  intro l
  induction l with
  | nil => intro _ _; exact ⟨rfl, fun _ => rfl⟩
  | cons c rest ih =>
    intro hw ha
    have hwrest : wsOnly32 rest = true := by
      simp only [wsOnly32, List.all_cons, Bool.and_eq_true] at hw
      exact hw.2
    have harest : noAdjWs rest = true := noAdjWs_tail ha
    by_cases hc : isWsN c = true
    · have hc32 : c = 32 := by
        simp only [wsOnly32, List.all_cons, Bool.and_eq_true, Bool.or_eq_true,
          Bool.not_eq_true', decide_eq_true_eq] at hw
        rcases hw.1 with h1 | h1
        · rw [hc] at h1; cases h1
        · exact h1
      have hhrest : headNotWs rest = true := headNotWs_of_noAdjWs_consWs hc ha
      have htrue : collapseAux true rest = rest := (ih hwrest harest).2 hhrest
      subst hc32
      refine ⟨?_, ?_⟩
      · simp [collapseAux, hc, htrue]
      · intro hh
        simp [headNotWs, hc] at hh
    · have hc2 : isWsN c = false := by simpa using hc
      have hfalse : collapseAux false rest = rest := (ih hwrest harest).1
      exact ⟨by simp [collapseAux, hc2, hfalse], fun _ => by simp [collapseAux, hc2, hfalse]⟩

theorem dropWhileWs_fix {l : Str} (h : headNotWs l = true) : l.dropWhile isWsN = l := by
  cases l with
  | nil => rfl
  | cons c rest =>
    simp only [headNotWs, Bool.not_eq_true'] at h
    simp [List.dropWhile, h]

theorem dropTrailingWs_fix : ∀ (l : Str), lastNotWs l = true → dropTrailingWs l = l := by
  intro l
  induction l with
  | nil => intro _; rfl
  | cons c rest ih =>
    intro h
    cases rest with
    | nil =>
      simp only [lastNotWs, Bool.not_eq_true'] at h
      simp [dropTrailingWs, h]
    | cons d r2 =>
      have h2 : lastNotWs (d :: r2) = true := by
        rw [← lastNotWs_cons_of_ne (c := c) (by simp)]; exact h
      have h3 : dropTrailingWs (d :: r2) = d :: r2 := ih h2
      have h4 : dropTrailingWs (c :: d :: r2) =
          if (dropTrailingWs (d :: r2)).isEmpty && isWsN c then []
          else c :: dropTrailingWs (d :: r2) := rfl
      rw [h4, h3]
      simp

/-- The normalized form has all whitespace as single interior spaces. -/
theorem normalize_nf (s : Str) :
    wsOnly32 (normalize s) = true ∧ noAdjWs (normalize s) = true ∧
      headNotWs (normalize s) = true ∧ lastNotWs (normalize s) = true := by
  unfold normalize trimWs collapseWs
  have hinv := collapseAux_inv (keepAllowed (removeCurrency (removeEllipsis (s.map jsToLower)))) false
  refine ⟨?_, noAdjWs_dropTrailingWs (noAdjWs_dropWhile hinv.2.1),
    headNotWs_dropTrailingWs (headNotWs_dropWhile _), lastNotWs_dropTrailingWs _⟩
  simp only [wsOnly32, List.all_eq_true]
  intro x hx
  have hx2 := mem_dropWhileWs (mem_dropTrailingWs hx)
  have h3 := hinv.1
  simp only [wsOnly32, List.all_eq_true] at h3
  exact h3 x hx2

/-- Every code unit of a normalized string is lower-fixed, non-currency and
in the kept class. -/
theorem mem_normalize_classes (s : Str) {x : Nat} (h : x ∈ normalize s) :
    jsToLower x = x ∧ isCurrencyN x = false ∧ isKeptN x = true := by
  unfold normalize trimWs collapseWs at h
  have h1 := mem_dropWhileWs (mem_dropTrailingWs h)
  rcases mem_collapseAux h1 with h2 | h2
  · have hmf := List.mem_filter.mp h2
    have hk : isKeptN x = true := hmf.2
    have hmf2 := List.mem_filter.mp hmf.1
    have hcur : isCurrencyN x = false := by simpa using hmf2.2
    have h5 := mem_removeEllipsis x _ hmf2.1
    rcases List.mem_map.mp h5 with ⟨y, _, hxy⟩
    exact ⟨hxy ▸ jsToLower_fix y, hcur, hk⟩
  · subst h2
    exact ⟨by decide, by decide, by decide⟩

/-- Core of claim C4 as amended: a second normalization pass is the
identity unless the first pass manufactured a new ellipsis. -/
theorem normalize_idem_of_noEllipsis (s : Str)
    (h : hasEllipsis (normalize s) = false) :
    normalize (normalize s) = normalize s := by
  obtain ⟨hw, ha, hh, hl⟩ := normalize_nf s
  have hmap : (normalize s).map jsToLower = normalize s :=
    map_fix (fun x hx => (mem_normalize_classes s hx).1)
  have hre : removeEllipsis (normalize s) = normalize s := removeEllipsis_fix _ h
  have hrc : removeCurrency (normalize s) = normalize s := by
    unfold removeCurrency
    refine List.filter_eq_self.mpr (fun x hx => ?_)
    simp [(mem_normalize_classes s hx).2.1]
  have hka : keepAllowed (normalize s) = normalize s := by
    unfold keepAllowed
    exact List.filter_eq_self.mpr (fun x hx => (mem_normalize_classes s hx).2.2)
  have hco : collapseWs (normalize s) = normalize s := (collapseAux_fix _ hw ha).1
  show trimWs (collapseWs (keepAllowed (removeCurrency (removeEllipsis
    ((normalize s).map jsToLower))))) = normalize s
  rw [hmap, hre, hrc, hka, hco]
  unfold trimWs
  rw [dropWhileWs_fix hh, dropTrailingWs_fix _ hl]

/-! ### Offset-table arithmetic: contiguity, partition, locating characters -/

/-- The ranges start exactly where the previous one ended plus the single
join separator, beginning at the given cursor, and each is well formed. -/
def contiguousFrom (c : Nat) : List (Nat × Nat) → Bool
  | [] => true
  | r :: rest => r.1 = c && r.1 ≤ r.2 && contiguousFrom (r.2 + 1) rest

theorem joinWithSpace_cons₂ (t u : Str) (r : List Str) :
    joinWithSpace (t :: u :: r) = t ++ 32 :: joinWithSpace (u :: r) := rfl

theorem joinWithSpace_len_cons (t : Str) (rest : List Str) (h : rest ≠ []) :
    (joinWithSpace (t :: rest)).length = t.length + 1 + (joinWithSpace rest).length := by
  cases rest with
  | nil => cases h rfl
  | cons u r =>
    rw [joinWithSpace_cons₂]
    simp [List.length_append]
    omega

theorem leafRangesAux_contiguous : ∀ (ts : List Str) (c : Nat),
    contiguousFrom c (leafRangesAux c ts) = true := by
  intro ts
  induction ts with
  | nil => intro c; rfl
  | cons t rest ih =>
    intro c
    simp only [leafRangesAux, contiguousFrom, Bool.and_eq_true, decide_eq_true_eq]
    exact ⟨⟨by trivial, by omega⟩, ih (c + t.length + 1)⟩

theorem leafRangesAux_lb : ∀ (ts : List Str) (c : Nat),
    ∀ p ∈ leafRangesAux c ts, c ≤ p.1 ∧ p.1 ≤ p.2 := by
  intro ts
  induction ts with
  | nil => intro c p hp; simp [leafRangesAux] at hp
  | cons t rest ih =>
    intro c p hp
    simp only [leafRangesAux, List.mem_cons] at hp
    rcases hp with hp | hp
    · subst hp; exact ⟨le_refl c, by omega⟩
    · have h2 := ih (c + t.length + 1) p hp
      exact ⟨le_trans (by omega) h2.1, h2.2⟩

theorem leafRangesAux_ne_nil (t : Str) (rest : List Str) (c : Nat) :
    leafRangesAux c (t :: rest) ≠ [] := by simp [leafRangesAux]

/-- The number of ranges whose half-open interval contains the offset k. -/
def countIn (k : Nat) : List (Nat × Nat) → Nat
  | [] => 0
  | r :: rest => (if r.1 ≤ k ∧ k < r.2 then 1 else 0) + countIn k rest

theorem countIn_zero_of_lb (k : Nat) : ∀ (rs : List (Nat × Nat)) (c : Nat),
    (∀ p ∈ rs, c ≤ p.1) → k < c → countIn k rs = 0 := by
  intro rs
  induction rs with
  | nil => intro c _ _; rfl
  | cons r rest ih =>
    intro c hlb hk
    have h1 : ¬ (r.1 ≤ k ∧ k < r.2) := by
      have := hlb r (List.mem_cons_self r rest)
      omega
    simp only [countIn, if_neg h1]
    have h2 : ∀ p ∈ rest, c ≤ p.1 := fun p hp => hlb p (List.mem_cons_of_mem r hp)
    simpa using ih c h2 hk

/-- Exactly one range contains every in-bounds offset that is not one of the
join-separator offsets (the recorded range ends, except the last). -/
theorem leafRanges_count : ∀ (ts : List Str) (c k : Nat), ts ≠ [] → c ≤ k →
    k < c + (joinWithSpace ts).length →
    k ∉ ((leafRangesAux c ts).dropLast).map Prod.snd →
    countIn k (leafRangesAux c ts) = 1 := by
  intro ts
  induction ts with
  | nil => intro c k h; cases h rfl
  | cons t rest ih =>
    intro c k _ hck hk hsep
    cases rest with
    | nil =>
      have hk2 : k < c + t.length := by simpa [joinWithSpace] using hk
      have hpred : (c, c + t.length).1 ≤ k ∧ k < (c, c + t.length).2 := ⟨hck, hk2⟩
      simp [leafRangesAux, countIn, if_pos hpred]
    | cons u r =>
      have hjoin := joinWithSpace_len_cons t (u :: r) (by simp)
      have hR2 := leafRangesAux_ne_nil u r (c + t.length + 1)
      have hexp : leafRangesAux c (t :: u :: r)
          = (c, c + t.length) :: leafRangesAux (c + t.length + 1) (u :: r) := rfl
      have hdrop : ((c, c + t.length) :: leafRangesAux (c + t.length + 1) (u :: r)).dropLast
          = (c, c + t.length) :: (leafRangesAux (c + t.length + 1) (u :: r)).dropLast := by
        cases hR : leafRangesAux (c + t.length + 1) (u :: r) with
        | nil => cases hR2 hR
        | cons a b => simp [List.dropLast]
      rw [hexp, hdrop, List.map_cons, List.mem_cons] at hsep
      push_neg at hsep
      have hksep : k ≠ c + t.length := hsep.1
      have hsep2 := hsep.2
      rw [hexp]
      have hcexp : countIn k ((c, c + t.length) :: leafRangesAux (c + t.length + 1) (u :: r))
          = (if (c, c + t.length).1 ≤ k ∧ k < (c, c + t.length).2 then 1 else 0)
            + countIn k (leafRangesAux (c + t.length + 1) (u :: r)) := rfl
      rcases Nat.lt_or_ge k (c + t.length) with hlt | hge
      · have hpred : (c, c + t.length).1 ≤ k ∧ k < (c, c + t.length).2 := ⟨hck, hlt⟩
        have hzero : countIn k (leafRangesAux (c + t.length + 1) (u :: r)) = 0 :=
          countIn_zero_of_lb k _ (c + t.length + 1)
            (fun p hp => (leafRangesAux_lb _ _ p hp).1) (by omega)
        rw [hcexp, if_pos hpred, hzero]
      · have hgt : c + t.length < k := by omega
        have hpred : ¬ ((c, c + t.length).1 ≤ k ∧ k < (c, c + t.length).2) := by
          simp only [not_and]
          intro _
          omega
        have hrec := ih (c + t.length + 1) k (by simp) (by omega) (by omega) hsep2
        rw [hcexp, if_neg hpred, hrec]

/-- Every in-bounds offset holding a code unit other than the separator
space lies inside some recorded leaf range. -/
theorem join_locate : ∀ (ts : List Str) (c k : Nat), k < (joinWithSpace ts).length →
    (joinWithSpace ts).getD k 0 ≠ 32 →
    ∃ p ∈ leafRangesAux c ts, p.1 ≤ c + k ∧ c + k < p.2 := by
  intro ts
  induction ts with
  | nil => intro c k hk; simp [joinWithSpace] at hk
  | cons t rest ih =>
    intro c k hk hchar
    cases rest with
    | nil =>
      have hk2 : k < t.length := by simpa [joinWithSpace] using hk
      exact ⟨(c, c + t.length), List.mem_cons_self _ _, by omega, by omega⟩
    | cons u r =>
      rcases Nat.lt_trichotomy k t.length with hlt | heq | hgt
      · exact ⟨(c, c + t.length), List.mem_cons_self _ _, by omega, by omega⟩
      · exfalso
        apply hchar
        subst heq
        rw [joinWithSpace_cons₂, List.getD_append_right t _ 0 t.length (le_refl _)]
        simp
      · have hjoin := joinWithSpace_len_cons t (u :: r) (by simp)
        have hk2 : k - t.length - 1 < (joinWithSpace (u :: r)).length := by omega
        have hchar2 : (joinWithSpace (u :: r)).getD (k - t.length - 1) 0 ≠ 32 := by
          intro heq2
          apply hchar
          rw [joinWithSpace_cons₂, List.getD_append_right t _ 0 k (by omega)]
          have h3 : k - t.length = (k - t.length - 1) + 1 := by omega
          rw [h3, List.getD_cons_succ]
          exact heq2
        obtain ⟨p, hp, hc1, hc2⟩ := ih (c + t.length + 1) (k - t.length - 1) hk2 hchar2
        refine ⟨p, ?_, by omega, by omega⟩
        have hexp : leafRangesAux c (t :: u :: r)
            = (c, c + t.length) :: leafRangesAux (c + t.length + 1) (u :: r) := rfl
        rw [hexp]
        exact List.mem_cons_of_mem _ hp

/-! ### The cursor walk equals the offset-table description -/

theorem applyHighlightAux_eq_overlap (mI mE : Nat) : ∀ (ts : List Str) (c idx : Nat),
    applyHighlightAux mI mE ts c idx = overlapIndicesAux mI mE (leafRangesAux c ts) idx := by
  intro ts
  induction ts with
  | nil => intro c idx; rfl
  | cons t rest ih =>
    intro c idx
    simp only [applyHighlightAux, leafRangesAux, overlapIndicesAux]
    rw [ih]

/-- applyHighlightToRange computes exactly the spec description: the spans
whose recorded range overlaps the match window. -/
theorem applyHighlightToRange_eq (ts : List Str) (mI mE : Nat) :
    applyHighlightToRange ts mI mE = overlapIndices (leafRanges ts) mI mE :=
  applyHighlightAux_eq_overlap mI mE ts 0 0

theorem mem_overlapIndicesAux (mI mE : Nat) : ∀ (rs : List (Nat × Nat)) (idx j : Nat),
    j ∈ overlapIndicesAux mI mE rs idx ↔
      ∃ d, d < rs.length ∧ j = idx + d ∧
        (rs.getD d (0, 0)).2 > mI ∧ (rs.getD d (0, 0)).1 < mE := by
  intro rs
  induction rs with
  | nil => intro idx j; simp [overlapIndicesAux]
  | cons r rest ih =>
    intro idx j
    simp only [overlapIndicesAux]
    by_cases hp : (r.2 > mI && r.1 < mE) = true
    · simp only [Bool.and_eq_true, decide_eq_true_eq] at hp
      rw [if_pos (by simp only [Bool.and_eq_true, decide_eq_true_eq]; exact hp)]
      simp only [List.mem_cons, ih (idx + 1) j]
      constructor
      · rintro (rfl | ⟨d, hd, rfl, hcond⟩)
        · exact ⟨0, by simp, by omega, by simpa using hp.1, by simpa using hp.2⟩
        · exact ⟨d + 1, by simpa using hd, by omega, by simpa using hcond.1,
            by simpa using hcond.2⟩
      · rintro ⟨d, hd, rfl, hcond⟩
        cases d with
        | zero => exact Or.inl (by omega)
        | succ d2 =>
          refine Or.inr ⟨d2, by simpa using hd, by omega, ?_, ?_⟩
          · simpa [List.getD_cons_succ] using hcond.1
          · simpa [List.getD_cons_succ] using hcond.2
    · rw [if_neg hp]
      simp only [Bool.and_eq_true, decide_eq_true_eq, not_and] at hp
      rw [ih (idx + 1) j]
      constructor
      · rintro ⟨d, hd, rfl, hcond⟩
        exact ⟨d + 1, by simpa using hd, by omega, by simpa using hcond.1,
          by simpa using hcond.2⟩
      · rintro ⟨d, hd, rfl, hcond⟩
        cases d with
        | zero =>
          exfalso
          simp only [List.getD_cons_zero] at hcond
          exact absurd hcond.2 (by simpa using hp (by simpa using hcond.1))
        | succ d2 =>
          refine ⟨d2, by simpa using hd, by omega, ?_, ?_⟩
          · simpa [List.getD_cons_succ] using hcond.1
          · simpa [List.getD_cons_succ] using hcond.2

theorem overlapIndicesAux_ge (mI mE : Nat) : ∀ (rs : List (Nat × Nat)) (idx : Nat),
    ∀ j ∈ overlapIndicesAux mI mE rs idx, idx ≤ j := by
  intro rs
  induction rs with
  | nil => intro idx j hj; simp [overlapIndicesAux] at hj
  | cons r rest ih =>
    intro idx j hj
    simp only [overlapIndicesAux] at hj
    by_cases hp : (r.2 > mI && r.1 < mE) = true
    · rw [if_pos hp] at hj
      rcases List.mem_cons.mp hj with rfl | hj2
      · exact le_refl _
      · exact le_trans (by omega) (ih (idx + 1) j hj2)
    · rw [if_neg hp] at hj
      exact le_trans (by omega) (ih (idx + 1) j hj)

theorem overlapIndicesAux_head_min (mI mE : Nat) : ∀ (rs : List (Nat × Nat)) (idx j0 : Nat),
    (overlapIndicesAux mI mE rs idx).head? = some j0 →
    ∀ j ∈ overlapIndicesAux mI mE rs idx, j0 ≤ j := by
  intro rs
  induction rs with
  | nil => intro idx j0 h; simp [overlapIndicesAux] at h
  | cons r rest ih =>
    intro idx j0 hhead j hj
    simp only [overlapIndicesAux] at hhead hj
    by_cases hp : (r.2 > mI && r.1 < mE) = true
    · rw [if_pos hp] at hhead hj
      have hj0 : idx = j0 := by simpa using hhead
      subst hj0
      rcases List.mem_cons.mp hj with rfl | hj2
      · exact le_refl _
      · exact le_trans (by omega) (overlapIndicesAux_ge mI mE rest (idx + 1) j hj2)
    · rw [if_neg hp] at hhead hj
      exact ih (idx + 1) j0 hhead j hj

/-! ### Facts about jsIndexOf -/

theorem isPrefOf_iff : ∀ (p l : Str), isPrefOf p l = true ↔ ∃ t, l = p ++ t := by
  intro p
  induction p with
  | nil => intro l; simp [isPrefOf]
  | cons a as ih =>
    intro l
    cases l with
    | nil => simp [isPrefOf]
    | cons b bs =>
      simp only [isPrefOf, Bool.and_eq_true, decide_eq_true_eq, ih bs]
      constructor
      · rintro ⟨rfl, t, rfl⟩
        exact ⟨t, rfl⟩
      · rintro ⟨t, ht⟩
        rw [List.cons_append] at ht
        injection ht with h1 h2
        exact ⟨h1.symm, t, h2⟩

theorem jsIndexOf_spec : ∀ (hay pat : Str) (i : Nat), jsIndexOf hay pat = some i →
    i + pat.length ≤ hay.length ∧ isPrefOf pat (hay.drop i) = true := by
  intro hay
  induction hay with
  | nil =>
    intro pat i h
    by_cases hpre : isPrefOf pat [] = true
    · rw [jsIndexOf, if_pos hpre] at h
      obtain ⟨t, ht⟩ := (isPrefOf_iff pat []).mp hpre
      have hpat : pat = [] := by
        cases pat with
        | nil => rfl
        | cons x xs => simp at ht
      injection h with h2
      subst h2
      subst hpat
      exact ⟨by simp, by simp [isPrefOf]⟩
    · rw [jsIndexOf, if_neg hpre] at h
      cases h
  | cons c rest ih =>
    intro pat i h
    by_cases hpre : isPrefOf pat (c :: rest) = true
    · rw [jsIndexOf, if_pos hpre] at h
      injection h with h2
      subst h2
      obtain ⟨t, ht⟩ := (isPrefOf_iff pat (c :: rest)).mp hpre
      constructor
      · calc 0 + pat.length ≤ pat.length + t.length := by omega
          _ = (pat ++ t).length := by simp
          _ = (c :: rest).length := by rw [← ht]
      · simpa using hpre
    · rw [jsIndexOf, if_neg hpre] at h
      simp only [Option.map_eq_some'] at h
      obtain ⟨i2, hi2, hplus⟩ := h
      subst hplus
      obtain ⟨hlen, hdrop⟩ := ih pat i2 hi2
      constructor
      · simp only [List.length_cons]
        omega
      · simpa [List.drop_succ_cons] using hdrop

theorem getD_drop_zero : ∀ (l : Str) (i : Nat), (l.drop i).getD 0 0 = l.getD i 0 := by
  intro l
  induction l with
  | nil => intro i; simp
  | cons c rest ih =>
    intro i
    cases i with
    | zero => simp
    | succ i2 =>
      rw [List.drop_succ_cons, List.getD_cons_succ]
      exact ih i2

/-- At a successful indexOf, the haystack holds the first pattern code unit
at the returned index. -/
theorem jsIndexOf_head (hay pat : Str) (i : Nat) (h : jsIndexOf hay pat = some i)
    (hne : pat ≠ []) : hay.getD i 0 = pat.getD 0 0 := by
  obtain ⟨_, hdrop⟩ := jsIndexOf_spec hay pat i h
  obtain ⟨t, ht⟩ := (isPrefOf_iff pat (hay.drop i)).mp hdrop
  cases pat with
  | nil => cases hne rfl
  | cons p0 ps =>
    rw [← getD_drop_zero, ht]
    simp

theorem headNotWs_getD_ne_32 {l : Str} (h : headNotWs l = true) (hne : l ≠ []) :
    l.getD 0 0 ≠ 32 := by
  cases l with
  | nil => cases hne rfl
  | cons c rest =>
    simp only [headNotWs, Bool.not_eq_true'] at h
    simp only [List.getD_cons_zero]
    intro h32
    subst h32
    simp [isWsN] at h

/-! ### Words of a normalized string: split and join are inverse -/

theorem splitOnSpace_ne_nil : ∀ (l : Str), splitOnSpace l ≠ [] := by
  intro l
  cases l with
  | nil => simp [splitOnSpace]
  | cons c rest =>
    by_cases hc : c = 32
    · simp [splitOnSpace, hc]
    · cases hsp : splitOnSpace rest with
      | nil => simp [splitOnSpace, hc, hsp]
      | cons w ws => simp [splitOnSpace, hc, hsp]

theorem splitOnSpace_cons_head {c : Nat} (rest : Str) (hc : ¬ c = 32) :
    ∃ w ws, splitOnSpace rest = w :: ws ∧ splitOnSpace (c :: rest) = (c :: w) :: ws := by
  cases hsp : splitOnSpace rest with
  | nil => exact absurd hsp (splitOnSpace_ne_nil rest)
  | cons w ws =>
    refine ⟨w, ws, rfl, ?_⟩
    simp [splitOnSpace, hc, hsp]

theorem join_cons_cons (a : Nat) (w : Str) (X : List Str) :
    joinWithSpace ((a :: w) :: X) = a :: joinWithSpace (w :: X) := by
  cases X with
  | nil => rfl
  | cons y ys => rfl

theorem notWs_ne_32 {c : Nat} (hc : isWsN c = false) : ¬ c = 32 := by
  intro h
  subst h
  simp [isWsN] at hc

theorem snippetWords_ne_nil (l : Str) (hne : l ≠ []) (hh : headNotWs l = true) :
    snippetWords l ≠ [] := by
  cases l with
  | nil => cases hne rfl
  | cons c rest =>
    have hcNotWs : isWsN c = false := by simpa [headNotWs] using hh
    obtain ⟨w, ws, _, h2⟩ := splitOnSpace_cons_head rest (notWs_ne_32 hcNotWs)
    simp [snippetWords, h2]

theorem wsOnly32_tail {c : Nat} {l : Str} (hw : wsOnly32 (c :: l) = true) :
    wsOnly32 l = true := by
  simp only [wsOnly32, List.all_cons, Bool.and_eq_true] at hw
  exact hw.2

/-- Splitting a normalized string on spaces, dropping the empty chunks and
joining with single spaces reproduces the string. -/
theorem join_snippetWords : ∀ (l : Str), wsOnly32 l = true → noAdjWs l = true →
    headNotWs l = true → lastNotWs l = true → joinWithSpace (snippetWords l) = l
  | [] => by intro _ _ _ _; rfl
  | [c] => by
    intro _ _ hh _
    have hcNotWs : isWsN c = false := by simpa [headNotWs] using hh
    obtain ⟨w, ws, h1, h2⟩ := splitOnSpace_cons_head ([] : Str) (notWs_ne_32 hcNotWs)
    have hwws : w = [] ∧ ws = [] := by simpa [splitOnSpace] using h1.symm
    obtain ⟨hw, hws⟩ := hwws
    subst hw
    subst hws
    simp [snippetWords, h2, joinWithSpace]
  | c :: d :: rest2 => by
    intro hw ha hh hl
    have hcNotWs : isWsN c = false := by simpa [headNotWs] using hh
    by_cases hd32 : d = 32
    · subst hd32
      have hhr : headNotWs rest2 = true :=
        headNotWs_of_noAdjWs_consWs (by simp [isWsN]) (noAdjWs_tail ha)
      have hwr : wsOnly32 rest2 = true := wsOnly32_tail (wsOnly32_tail hw)
      have har : noAdjWs rest2 = true := noAdjWs_tail (noAdjWs_tail ha)
      have hrne : rest2 ≠ [] := by
        intro h0
        subst h0
        simp [lastNotWs, isWsN] at hl
      have hlr : lastNotWs rest2 = true := by
        have h1 : lastNotWs (32 :: rest2) = true := by
          rw [← lastNotWs_cons_of_ne (c := c) (by simp)]
          exact hl
        rw [lastNotWs_cons_of_ne hrne] at h1
        exact h1
      have hIH := join_snippetWords rest2 hwr har hhr hlr
      have hsplit : splitOnSpace (c :: 32 :: rest2) = [c] :: splitOnSpace rest2 := by
        simp [splitOnSpace, notWs_ne_32 hcNotWs]
      have hwords : snippetWords (c :: 32 :: rest2) = [c] :: snippetWords rest2 := by
        simp [snippetWords, hsplit]
      have hwne : snippetWords rest2 ≠ [] := snippetWords_ne_nil rest2 hrne hhr
      rw [hwords]
      cases hW : snippetWords rest2 with
      | nil => cases hwne hW
      | cons w ws =>
        rw [hW] at hIH
        rw [joinWithSpace_cons₂]
        simp [hIH]
    · have hdNotWs : isWsN d = false := by
        have h1 : (!isWsN d || d = 32) = true := by
          simp only [wsOnly32, List.all_cons, Bool.and_eq_true] at hw
          simpa using hw.2.1
        rcases Bool.or_eq_true_iff.mp h1 with h2 | h2
        · simpa using h2
        · exact absurd (by simpa using h2) hd32
      have hhr : headNotWs (d :: rest2) = true := by simp [headNotWs, hdNotWs]
      have hwr : wsOnly32 (d :: rest2) = true := wsOnly32_tail hw
      have har : noAdjWs (d :: rest2) = true := noAdjWs_tail ha
      have hlr : lastNotWs (d :: rest2) = true := by
        rw [← lastNotWs_cons_of_ne (c := c) (by simp)]
        exact hl
      have hIH := join_snippetWords (d :: rest2) hwr har hhr hlr
      obtain ⟨w2, ws2, hsp1, hsp2⟩ := splitOnSpace_cons_head rest2 (notWs_ne_32 hdNotWs)
      obtain ⟨w3, ws3, hsp3, hsp4⟩ :=
        splitOnSpace_cons_head (d :: rest2) (notWs_ne_32 hcNotWs)
      rw [hsp2] at hsp3
      injection hsp3 with h5 h6
      subst h5
      subst h6
      have hwordsA : snippetWords (c :: d :: rest2) = (c :: d :: w2) :: (ws2.filter (fun w => !w.isEmpty)) := by
        simp [snippetWords, hsp4]
      have hwordsB : snippetWords (d :: rest2) = (d :: w2) :: (ws2.filter (fun w => !w.isEmpty)) := by
        simp [snippetWords, hsp2]
      rw [hwordsA, join_cons_cons, ← hwordsB, hIH]
termination_by l => l.length
decreasing_by
  all_goals simp only [List.length_cons]
  all_goals omega

/-! ### Supporting lemmas for the claims -/

theorem leafRangesAux_length : ∀ (ts : List Str) (c : Nat),
    (leafRangesAux c ts).length = ts.length := by
  intro ts
  induction ts with
  | nil => intro c; rfl
  | cons t rest ih =>
    intro c
    simp [leafRangesAux, ih]

theorem jsIndexOf_nil_some {p : Str} {j : Nat} (h : jsIndexOf [] p = some j) : p = [] := by
  by_cases hpre : isPrefOf p [] = true
  · obtain ⟨t, ht⟩ := (isPrefOf_iff p []).mp hpre
    cases p with
    | nil => rfl
    | cons x xs => simp at ht
  · rw [jsIndexOf, if_neg hpre] at h
    cases h

theorem joinWithSpace_two_ne_nil (w x : Str) (xs : List Str) :
    joinWithSpace (w :: x :: xs) ≠ [] := by
  rw [joinWithSpace_cons₂]
  simp

theorem tokenMarksAux_ne_nil (toks : List Str) : ∀ (nts : List Str) (idx : Nat),
    (∃ nt ∈ nts, toks.any (fun tok => containsSub nt tok) = true) →
    tokenMarksAux toks nts idx ≠ [] := by
  intro nts
  induction nts with
  | nil =>
    rintro idx ⟨nt, hnt, _⟩
    simp at hnt
  | cons t rest ih =>
    intro idx h
    by_cases ht : toks.any (fun tok => containsSub t tok) = true
    · simp [tokenMarksAux, ht]
    · have h2 : ∃ nt ∈ rest, toks.any (fun tok => containsSub nt tok) = true := by
        obtain ⟨nt, hnt, hc⟩ := h
        rcases List.mem_cons.mp hnt with rfl | hnt2
        · exact absurd hc ht
        · exact ⟨nt, hnt2, hc⟩
      have h3 := ih (idx + 1) h2
      simpa [tokenMarksAux, ht] using h3

/-! Unfolding equations for the three engine outcomes. -/

theorem matchEngine_full (spanTexts : List Str) (snippet : Str) (i : Nat)
    (hne : ¬ spanTexts.length = 0)
    (hi : jsIndexOf (normPage spanTexts) (normalize snippet) = some i) :
    matchEngine spanTexts snippet =
      ⟨applyHighlightToRange (normTexts spanTexts) i (i + (normalize snippet).length),
        (applyHighlightToRange (normTexts spanTexts) i (i + (normalize snippet).length)).head?,
        Tier.FULL⟩ := by
  unfold matchEngine
  rw [if_neg hne, hi]

theorem matchEngine_partial (spanTexts : List Str) (snippet : Str) (j : Nat)
    (hne : ¬ spanTexts.length = 0)
    (hFull : jsIndexOf (normPage spanTexts) (normalize snippet) = none)
    (hw : 5 < (snippetWords (normalize snippet)).length)
    (hj : jsIndexOf (normPage spanTexts) (engineShort snippet) = some j) :
    matchEngine spanTexts snippet =
      ⟨applyHighlightToRange (normTexts spanTexts) j (j + (engineShort snippet).length),
        (applyHighlightToRange (normTexts spanTexts) j (j + (engineShort snippet).length)).head?,
        Tier.PARTIAL⟩ := by
  unfold matchEngine
  rw [if_neg hne, hFull, if_pos hw, hj]

theorem matchEngine_token (spanTexts : List Str) (snippet : Str)
    (hne : ¬ spanTexts.length = 0)
    (hFull : jsIndexOf (normPage spanTexts) (normalize snippet) = none)
    (hPart : 5 < (snippetWords (normalize snippet)).length →
      jsIndexOf (normPage spanTexts) (engineShort snippet) = none) :
    matchEngine spanTexts snippet = tokenStage spanTexts snippet := by
  unfold matchEngine
  rw [if_neg hne, hFull]
  by_cases hw : 5 < (snippetWords (normalize snippet)).length
  · rw [if_pos hw, hPart hw]
  · rw [if_neg hw]

/-! Component view of a delivered timer. -/

/-- The (page, span) marks a timer adds when it fires. -/
def timerMarks (doc : List PageT) (tm : PendingTimer) : List (Nat × Nat) :=
  match getPage doc tm.page with
  | none => []
  | some pg => (pageMatch pg tm.snippet).marked.map (fun i => (tm.page, i))

/-- Whether a firing timer scrolls an anchor into view. -/
def timerScroll (doc : List PageT) (tm : PendingTimer) : Nat :=
  match getPage doc tm.page with
  | none => 0
  | some pg =>
    match (pageMatch pg tm.snippet).anchor with
    | some _ => 1
    | none => 0

/-- Whether a firing timer reaches its page container at all. -/
def timerApply (doc : List PageT) (tm : PendingTimer) : Nat :=
  match getPage doc tm.page with
  | none => 0
  | some _ => 1

/-- The page ring after a timer fires, given the ring before. -/
def timerRing (doc : List PageT) (tm : PendingTimer) (old : Option Nat) : Option Nat :=
  match getPage doc tm.page with
  | none => old
  | some pg =>
    match (pageMatch pg tm.snippet).anchor with
    | some _ => old
    | none => some tm.page

theorem runTimer_fields (doc : List PageT) (tm : PendingTimer) (st : CoordState) :
    (runTimer doc tm st).marked = st.marked ++ timerMarks doc tm ∧
    (runTimer doc tm st).pending = st.pending ∧
    (runTimer doc tm st).clearCount = st.clearCount ∧
    (runTimer doc tm st).scrollCount = st.scrollCount + timerScroll doc tm ∧
    (runTimer doc tm st).applyCount = st.applyCount + timerApply doc tm ∧
    (runTimer doc tm st).highlightPage = timerRing doc tm st.highlightPage := by
  unfold runTimer timerMarks timerScroll timerApply timerRing
  cases hg : getPage doc tm.page with
  | none => simp
  | some pg =>
    cases ha : (pageMatch pg tm.snippet).anchor with
    | none => simp [ha]
    | some a => simp [ha]

/-- Running the pair set-then-fire from the initial state delivers exactly
the timer the new target scheduled. -/
theorem runEvents_set_fire (doc : List PageT) (t : HighlightTarget) :
    runEvents doc [Ev.set (some t), Ev.fire]
      = ⟨some t, runTimer doc ⟨t.page, t.snippet⟩
          ⟨[], none, [], 1, if (getPage doc t.page).isSome then 1 else 0, 0⟩⟩ := by
  show dispatch doc (dispatch doc sysInit (Ev.set (some t))) Ev.fire = _
  have h1 : dispatch doc sysInit (Ev.set (some t)) = ⟨some t, newTarget doc sysInit.coord t⟩ := by
    show (if sysInit.current = some t then sysInit
      else ⟨some t, newTarget doc sysInit.coord t⟩) = ⟨some t, newTarget doc sysInit.coord t⟩
    rw [if_neg (by simp [sysInit])]
  rw [h1]
  have h2 : newTarget doc sysInit.coord t
      = ⟨[], none, [⟨t.page, t.snippet⟩], 1,
          if (getPage doc t.page).isSome then 1 else 0, 0⟩ := by
    unfold newTarget sysInit
    simp
  rw [h2]
  rfl

/-! ### Claim theorems -/

/-- Claim C4, counterexample to idempotence as stated: stripping the
exclamation marks of this input manufactures a fresh ellipsis, which only
a second normalization pass removes, so the two passes disagree. -/
theorem c4_not_idempotent_cex :
    normalize (normalize (strLit ("a.!.!.b"))) ≠ normalize (strLit ("a.!.!.b")) := by decide

/-- Claim C4 (amended): normalize is a total deterministic function, and
normalize(normalize(s)) = normalize(s) holds for every s whose normalized
form contains no three consecutive full stops; unconditional idempotence
fails at the counterexample input. -/
theorem c4_normalize_idempotent_no_ellipsis (s : Str)
    (h : hasEllipsis (normalize s) = false) :
    normalize (normalize s) = normalize s :=
  normalize_idem_of_noEllipsis s h

theorem c4_idempotent_witness :
    hasEllipsis (normalize (strLit ("Hello, World!"))) = false ∧
    normalize (normalize (strLit ("Hello, World!"))) = normalize (strLit ("Hello, World!")) :=
  ⟨by decide, c4_normalize_idempotent_no_ellipsis (strLit ("Hello, World!")) (by decide)⟩

/-- Claim C9: for every non-empty leaf sequence, the ranges recorded for
the single-space join of the normalized leaf texts are contiguous and
non-overlapping (each starts where the previous ended plus the one-space
separator, starting at offset 0), and every in-bounds offset that is not a
join-separator offset lies in exactly one leaf range. -/
theorem c9_ranges_partition (leaves : List Str) (hne : leaves ≠ []) :
    contiguousFrom 0 (leafRanges (leaves.map normalize)) = true ∧
    ∀ k, k < (joinWithSpace (leaves.map normalize)).length →
      k ∉ ((leafRanges (leaves.map normalize)).dropLast).map Prod.snd →
      countIn k (leafRanges (leaves.map normalize)) = 1 := by
  refine ⟨leafRangesAux_contiguous _ 0, ?_⟩
  intro k hk hsep
  have hmapne : leaves.map normalize ≠ [] := by
    cases leaves with
    | nil => exact absurd rfl hne
    | cons a l => simp
  exact leafRanges_count _ 0 k hmapne (Nat.zero_le k) (by simpa using hk) hsep

theorem c9_partition_witness :
    contiguousFrom 0 (leafRanges ([strLit ("ab"), strLit ("c")].map normalize)) = true ∧
    countIn 0 (leafRanges ([strLit ("ab"), strLit ("c")].map normalize)) = 1 :=
  ⟨(c9_ranges_partition [strLit ("ab"), strLit ("c")] (by decide)).1,
   (c9_ranges_partition [strLit ("ab"), strLit ("c")] (by decide)).2 0 (by decide) (by decide)⟩

/-- Claim C10: for snippets of more than 5 and at most 15 normalized
words, the layer-2 search string equals the full normalized snippet, so
the partial layer can never fire on a page where the full layer failed. -/
theorem c10_partial_never_beats_full (snippet : Str)
    (_hlo : 5 < (snippetWords (normalize snippet)).length)
    (hhi : (snippetWords (normalize snippet)).length ≤ 15) :
    engineShort snippet = normalize snippet ∧
    ∀ spanTexts : List Str,
      jsIndexOf (normPage spanTexts) (normalize snippet) = none →
      (matchEngine spanTexts snippet).tier ≠ Tier.PARTIAL := by
  have htake : (snippetWords (normalize snippet)).take 15 = snippetWords (normalize snippet) :=
    List.take_of_length_le hhi
  obtain ⟨hw, ha, hh, hl⟩ := normalize_nf snippet
  have hshort : engineShort snippet = normalize snippet := by
    unfold engineShort
    rw [htake]
    exact join_snippetWords (normalize snippet) hw ha hh hl
  refine ⟨hshort, ?_⟩
  intro spanTexts hFull
  by_cases hne : spanTexts.length = 0
  · unfold matchEngine
    rw [if_pos hne]
    simp
  · have heq := matchEngine_token spanTexts snippet hne hFull
      (fun _ => by rw [hshort]; exact hFull)
    rw [heq]
    unfold tokenStage
    by_cases hk : (keyTokensOf snippet).length = 0
    · rw [if_pos hk]
      simp
    · rw [if_neg hk]
      simp

theorem c10_witness :
    5 < (snippetWords (normalize (strLit ("a b c d e f")))).length ∧
    engineShort (strLit ("a b c d e f")) = normalize (strLit ("a b c d e f")) ∧
    (matchEngine [strLit ("zzz")] (strLit ("a b c d e f"))).tier ≠ Tier.PARTIAL :=
  ⟨by decide,
   (c10_partial_never_beats_full (strLit ("a b c d e f")) (by decide) (by decide)).1,
   (c10_partial_never_beats_full (strLit ("a b c d e f")) (by decide) (by decide)).2
     [strLit ("zzz")] (by decide)⟩

/-- Claim C6: when the full layer fails, the normalized snippet has more
than 5 words, and the first 15 words joined by single spaces occur in the
normalized page, the engine answers at the PARTIAL layer and marks exactly
the leaves whose range overlaps the found window. -/
theorem c6_partial_tier_succeeds (spanTexts : List Str) (snippet : Str) (j : Nat)
    (hFull : jsIndexOf (normPage spanTexts) (normalize snippet) = none)
    (hWords : 5 < (snippetWords (normalize snippet)).length)
    (hPart : jsIndexOf (normPage spanTexts) (engineShort snippet) = some j) :
    (matchEngine spanTexts snippet).tier = Tier.PARTIAL ∧
    (matchEngine spanTexts snippet).marked
      = overlapIndices (leafRanges (normTexts spanTexts)) j
          (j + (engineShort snippet).length) := by
  have hne : ¬ spanTexts.length = 0 := by
    intro h0
    have h1 : spanTexts = [] := List.length_eq_zero.mp h0
    subst h1
    have h2 := jsIndexOf_nil_some hPart
    have h3 : 2 ≤ ((snippetWords (normalize snippet)).take 15).length := by
      rw [List.length_take]
      omega
    cases hT2 : (snippetWords (normalize snippet)).take 15 with
    | nil => rw [hT2] at h3; simp at h3
    | cons w rest =>
      cases rest with
      | nil => rw [hT2] at h3; simp at h3
      | cons x xs =>
        unfold engineShort at h2
        rw [hT2] at h2
        exact joinWithSpace_two_ne_nil w x xs h2
  have heq := matchEngine_partial spanTexts snippet j hne hFull hWords hPart
  rw [heq]
  exact ⟨rfl, applyHighlightToRange_eq _ _ _⟩

theorem c6_partial_witness :
    (matchEngine [strLit ("a b c d e f g h i j k l m n o")]
      (strLit ("a b c d e f g h i j k l m n o z"))).tier = Tier.PARTIAL ∧
    (matchEngine [strLit ("a b c d e f g h i j k l m n o")]
      (strLit ("a b c d e f g h i j k l m n o z"))).marked
      = overlapIndices
          (leafRanges (normTexts [strLit ("a b c d e f g h i j k l m n o")])) 0
          (0 + (engineShort (strLit ("a b c d e f g h i j k l m n o z"))).length) :=
  c6_partial_tier_succeeds [strLit ("a b c d e f g h i j k l m n o")]
    (strLit ("a b c d e f g h i j k l m n o z")) 0 (by decide) (by decide) (by decide)

/-- A successful layer-2 lookup forces a non-empty span list: on the empty
page the concatenation is empty, and the layer-2 search string of a
more-than-5-word snippet is not. -/
theorem spanTexts_ne_of_short_hit {spanTexts : List Str} {snippet : Str} {j : Nat}
    (hWords : 5 < (snippetWords (normalize snippet)).length)
    (hPart : jsIndexOf (normPage spanTexts) (engineShort snippet) = some j) :
    ¬ spanTexts.length = 0 := by
  intro h0
  have h1 : spanTexts = [] := List.length_eq_zero.mp h0
  subst h1
  have h2 := jsIndexOf_nil_some hPart
  have h3 : 2 ≤ ((snippetWords (normalize snippet)).take 15).length := by
    rw [List.length_take]
    omega
  cases hT2 : (snippetWords (normalize snippet)).take 15 with
  | nil => rw [hT2] at h3; simp at h3
  | cons w rest =>
    cases rest with
    | nil => rw [hT2] at h3; simp at h3
    | cons x xs =>
      unfold engineShort at h2
      rw [hT2] at h2
      exact joinWithSpace_two_ne_nil w x xs h2

/-- The anchor of a match result is the first marked leaf in reading order,
or none when no leaf is marked. -/
def anchorIsFirst (r : MatchResult) : Prop :=
  (r.marked = [] → r.anchor = none) ∧
  ∀ j0, r.anchor = some j0 → j0 ∈ r.marked ∧ ∀ j ∈ r.marked, j0 ≤ j

theorem anchorIsFirst_head (m : List Nat) (tr : Tier)
    (hmin : ∀ j0, m.head? = some j0 → ∀ j ∈ m, j0 ≤ j) :
    anchorIsFirst ⟨m, m.head?, tr⟩ := by
  constructor
  · intro h
    have h2 : m = [] := h
    show m.head? = none
    rw [h2]
    rfl
  · intro j0 h
    have hj0 : m.head? = some j0 := h
    constructor
    · cases m with
      | nil => cases hj0
      | cons a t =>
        have ha : a = j0 := by simpa using hj0
        subst ha
        exact List.mem_cons_self _ _
    · exact hmin j0 hj0

theorem applyHighlight_head_min (ts : List Str) (mI mE : Nat) :
    ∀ j0, (applyHighlightToRange ts mI mE).head? = some j0 →
      ∀ j ∈ applyHighlightToRange ts mI mE, j0 ≤ j := by
  rw [applyHighlightToRange_eq]
  exact overlapIndicesAux_head_min mI mE (leafRanges ts) 0

/-- Claim C5: whenever layer FULL or layer PARTIAL finds its search string
at some index, the marked set is exactly the set of leaves whose recorded
half-open range overlaps the match window (end above the match index,
start below the window end), and the returned scroll anchor is the first
marked leaf in reading order, or none when nothing is marked. -/
theorem c5_marked_and_anchor (spanTexts : List Str) (snippet : Str) (i : Nat) :
    (jsIndexOf (normPage spanTexts) (normalize snippet) = some i →
      (matchEngine spanTexts snippet).marked
        = overlapIndices (leafRanges (normTexts spanTexts)) i
            (i + (normalize snippet).length) ∧
      anchorIsFirst (matchEngine spanTexts snippet)) ∧
    (jsIndexOf (normPage spanTexts) (normalize snippet) = none →
      5 < (snippetWords (normalize snippet)).length →
      jsIndexOf (normPage spanTexts) (engineShort snippet) = some i →
      (matchEngine spanTexts snippet).marked
        = overlapIndices (leafRanges (normTexts spanTexts)) i
            (i + (engineShort snippet).length) ∧
      anchorIsFirst (matchEngine spanTexts snippet)) := by
  constructor
  · intro hi
    by_cases hne : spanTexts.length = 0
    · have h1 : spanTexts = [] := List.length_eq_zero.mp hne
      subst h1
      have hempty : matchEngine [] snippet = ⟨[], none, Tier.NONE⟩ := rfl
      rw [hempty]
      exact ⟨rfl, fun _ => rfl, fun j0 h => nomatch h⟩
    · have heq := matchEngine_full spanTexts snippet i hne hi
      rw [heq]
      exact ⟨applyHighlightToRange_eq _ _ _,
        anchorIsFirst_head _ _ (applyHighlight_head_min _ _ _)⟩
  · intro hFull hWords hPart
    have hne := spanTexts_ne_of_short_hit hWords hPart
    have heq := matchEngine_partial spanTexts snippet i hne hFull hWords hPart
    rw [heq]
    exact ⟨applyHighlightToRange_eq _ _ _,
      anchorIsFirst_head _ _ (applyHighlight_head_min _ _ _)⟩

theorem c5_marked_witness :
    (matchEngine [strLit ("ab"), strLit ("cd")] (strLit ("cd"))).marked
      = overlapIndices (leafRanges (normTexts [strLit ("ab"), strLit ("cd")])) 3
          (3 + (normalize (strLit ("cd"))).length) :=
  ((c5_marked_and_anchor [strLit ("ab"), strLit ("cd")] (strLit ("cd")) 3).1 (by decide)).1

/-- Claim C1, counterexample to the claim as stated: the snippet "..."
normalizes to the empty string, which occurs as a substring of every
normalized page, so layer FULL fires; yet no leaf at all is marked, and
the engine returns a null anchor. -/
theorem c1_empty_snippet_cex :
    containsSub (normPage [strLit ("hello")]) (normalize (strLit ("..."))) = true ∧
    (matchEngine [strLit ("hello")] (strLit ("..."))).tier = Tier.FULL ∧
    (matchEngine [strLit ("hello")] (strLit ("..."))).marked = [] := by decide

/-- Claim C1 (amended): for every snippet whose normalized form is
non-empty, if that form occurs in the normalized page concatenation then
the engine answers at layer FULL, the marked set is non-empty, and the
leaf whose recorded range contains the occurrence index is marked. -/
theorem c1_full_marks_containing_leaf (spanTexts : List Str) (snippet : Str) (i : Nat)
    (hneSnip : normalize snippet ≠ [])
    (hi : jsIndexOf (normPage spanTexts) (normalize snippet) = some i) :
    (matchEngine spanTexts snippet).tier = Tier.FULL ∧
    (matchEngine spanTexts snippet).marked ≠ [] ∧
    ∃ j, j < (normTexts spanTexts).length ∧
      ((leafRanges (normTexts spanTexts)).getD j (0, 0)).1 ≤ i ∧
      i < ((leafRanges (normTexts spanTexts)).getD j (0, 0)).2 ∧
      j ∈ (matchEngine spanTexts snippet).marked := by
  have hne : ¬ spanTexts.length = 0 := by
    intro h0
    have h1 := List.length_eq_zero.mp h0
    subst h1
    exact hneSnip (jsIndexOf_nil_some hi)
  have heq := matchEngine_full spanTexts snippet i hne hi
  obtain ⟨hlen, _⟩ := jsIndexOf_spec _ _ _ hi
  have hnsLen : 1 ≤ (normalize snippet).length := by
    cases hns : normalize snippet with
    | nil => exact absurd hns hneSnip
    | cons a t => simp
  have hiLt : i < (normPage spanTexts).length := by omega
  have hchar : (normPage spanTexts).getD i 0 ≠ 32 := by
    rw [jsIndexOf_head _ _ _ hi hneSnip]
    exact headNotWs_getD_ne_32 (normalize_nf snippet).2.2.1 hneSnip
  obtain ⟨p, hp, hp1, hp2⟩ := join_locate (normTexts spanTexts) 0 i hiLt hchar
  obtain ⟨⟨d, hd⟩, hget⟩ := List.mem_iff_get.mp hp
  have hdlen : d < (normTexts spanTexts).length := by
    have h2 := leafRangesAux_length (normTexts spanTexts) 0
    omega
  have hgetD : (leafRangesAux 0 (normTexts spanTexts)).getD d (0, 0) = p := by
    rw [List.getD_eq_getElem _ _ hd]
    exact hget
  have hmem : d ∈ applyHighlightToRange (normTexts spanTexts) i
      (i + (normalize snippet).length) := by
    rw [applyHighlightToRange_eq]
    show d ∈ overlapIndicesAux i (i + (normalize snippet).length)
      (leafRangesAux 0 (normTexts spanTexts)) 0
    refine (mem_overlapIndicesAux _ _ _ 0 d).mpr ⟨d, hd, by omega, ?_, ?_⟩
    · rw [hgetD]
      omega
    · rw [hgetD]
      omega
  have hc1 : ((leafRanges (normTexts spanTexts)).getD d (0, 0)).1 ≤ i := by
    show ((leafRangesAux 0 (normTexts spanTexts)).getD d (0, 0)).1 ≤ i
    rw [hgetD]
    omega
  have hc2 : i < ((leafRanges (normTexts spanTexts)).getD d (0, 0)).2 := by
    show i < ((leafRangesAux 0 (normTexts spanTexts)).getD d (0, 0)).2
    rw [hgetD]
    omega
  rw [heq]
  exact ⟨rfl, List.ne_nil_of_mem hmem, ⟨d, hdlen, hc1, hc2, hmem⟩⟩

theorem c1_full_witness :
    (matchEngine [strLit ("early termination"), strLit ("fee")]
      (strLit ("termination fee"))).tier = Tier.FULL ∧
    (matchEngine [strLit ("early termination"), strLit ("fee")]
      (strLit ("termination fee"))).marked ≠ [] :=
  ⟨(c1_full_marks_containing_leaf [strLit ("early termination"), strLit ("fee")]
      (strLit ("termination fee")) 6 (by decide) (by decide)).1,
   (c1_full_marks_containing_leaf [strLit ("early termination"), strLit ("fee")]
      (strLit ("termination fee")) 6 (by decide) (by decide)).2.1⟩

/-- Claim C2, counterexample to the claim as stated: both phrase layers
fail, the word zebra of the snippet is longer than 4 code units and occurs
in a leaf, yet the token layer marks nothing, because zebra is the sixth
long word and only the first five become key tokens. -/
theorem c2_sixth_token_cex :
    jsIndexOf (normPage [strLit ("zebra")])
      (normalize (strLit ("aaaaa bbbbb ccccc ddddd eeeee zebra"))) = none ∧
    jsIndexOf (normPage [strLit ("zebra")])
      (engineShort (strLit ("aaaaa bbbbb ccccc ddddd eeeee zebra"))) = none ∧
    strLit ("zebra") ∈ snippetWords (normalize (strLit ("aaaaa bbbbb ccccc ddddd eeeee zebra"))) ∧
    4 < (strLit ("zebra")).length ∧
    containsSub ((normTexts [strLit ("zebra")]).getD 0 []) (strLit ("zebra")) = true ∧
    (matchEngine [strLit ("zebra")] (strLit ("aaaaa bbbbb ccccc ddddd eeeee zebra"))).marked = [] := by
  decide

/-- Claim C2 (amended): when both phrase layers fail, if one of the key
tokens (the first five words of the normalized snippet longer than 4 code
units) occurs in the normalized text of some leaf, the engine answers at
layer TOKEN and marks at least one leaf; and if the normalized snippet has
no word longer than 4 code units at all, the result is NONE with nothing
marked. -/
theorem c2_token_tier (spanTexts : List Str) (snippet : Str)
    (hne : spanTexts ≠ [])
    (hFull : jsIndexOf (normPage spanTexts) (normalize snippet) = none)
    (hPart : 5 < (snippetWords (normalize snippet)).length →
      jsIndexOf (normPage spanTexts) (engineShort snippet) = none) :
    ((∃ tok ∈ keyTokensOf snippet, ∃ nt ∈ normTexts spanTexts, containsSub nt tok = true) →
      (matchEngine spanTexts snippet).tier = Tier.TOKEN ∧
      (matchEngine spanTexts snippet).marked ≠ []) ∧
    ((snippetWords (normalize snippet)).filter (fun w => 4 < w.length) = [] →
      (matchEngine spanTexts snippet).tier = Tier.NONE ∧
      (matchEngine spanTexts snippet).marked = []) := by
  have hne0 : ¬ spanTexts.length = 0 := by
    intro h0
    exact hne (List.length_eq_zero.mp h0)
  have heq := matchEngine_token spanTexts snippet hne0 hFull hPart
  rw [heq]
  constructor
  · rintro ⟨tok, htok, nt, hnt, hsub⟩
    have hkne : ¬ (keyTokensOf snippet).length = 0 := by
      intro h0
      have h1 : keyTokensOf snippet = [] := List.length_eq_zero.mp h0
      rw [h1] at htok
      simp at htok
    unfold tokenStage
    rw [if_neg hkne]
    refine ⟨rfl, ?_⟩
    apply tokenMarksAux_ne_nil
    refine ⟨nt, hnt, ?_⟩
    rw [List.any_eq_true]
    exact ⟨tok, htok, hsub⟩
  · intro hfilt
    have hk : (keyTokensOf snippet).length = 0 := by
      unfold keyTokensOf
      rw [hfilt]
      rfl
    unfold tokenStage
    rw [if_pos hk]
    exact ⟨rfl, rfl⟩

theorem c2_token_witness :
    (matchEngine [strLit ("termination fee")] (strLit ("zzzzz termination"))).tier = Tier.TOKEN ∧
    (matchEngine [strLit ("termination fee")] (strLit ("zzzzz termination"))).marked ≠ [] :=
  (c2_token_tier [strLit ("termination fee")] (strLit ("zzzzz termination"))
    (by decide) (by decide) (by decide)).1 (by decide)

/-! Null-result cases of a delivered timer. -/

theorem pageMatch_noSnippet (pg : PageT) :
    (pageMatch pg none).anchor = none ∧ (pageMatch pg none).marked = [] := ⟨rfl, rfl⟩

theorem pageMatch_noLayer (sn : Option Str) :
    (pageMatch none sn).anchor = none ∧ (pageMatch none sn).marked = [] := by
  cases sn with
  | none => exact ⟨rfl, rfl⟩
  | some s =>
    by_cases hs : s.isEmpty
    · simp [pageMatch, hs]
    · simp [pageMatch, hs]

theorem pageMatch_noSpans (sn : Option Str) :
    (pageMatch (some []) sn).anchor = none ∧ (pageMatch (some []) sn).marked = [] := by
  cases sn with
  | none => exact ⟨rfl, rfl⟩
  | some s =>
    by_cases hs : s.isEmpty
    · simp [pageMatch, hs]
    · simp [pageMatch, matchEngine, hs]

theorem timerRing_fallback {doc : List PageT} {tm : PendingTimer} {pg : PageT}
    (old : Option Nat) (hpg : getPage doc tm.page = some pg)
    (ha : (pageMatch pg tm.snippet).anchor = none) :
    timerRing doc tm old = some tm.page := by
  simp [timerRing, hpg, ha]

theorem timerMarks_of_empty {doc : List PageT} {tm : PendingTimer} {pg : PageT}
    (hpg : getPage doc tm.page = some pg)
    (hmk : (pageMatch pg tm.snippet).marked = []) :
    timerMarks doc tm = [] := by
  simp [timerMarks, hpg, hmk]

theorem timerRing_skip {doc : List PageT} {tm : PendingTimer} (old : Option Nat)
    (hpg : getPage doc tm.page = none) : timerRing doc tm old = old := by
  simp [timerRing, hpg]

theorem timerMarks_skip {doc : List PageT} {tm : PendingTimer}
    (hpg : getPage doc tm.page = none) : timerMarks doc tm = [] := by
  simp [timerMarks, hpg]

/-- Claim C7, counterexample to the claim as stated: a target page past the
last rendered page makes the timer body return before any marking, so no
page ring is set either; the claimed fallback ring does not appear. -/
theorem c7_past_last_page_cex :
    getPage [some [strLit ("hello")]] 2 = none ∧
    (runEvents [some [strLit ("hello")]]
      [Ev.set (some ⟨2, [], none, 0⟩), Ev.fire]).coord.highlightPage = none ∧
    ¬ (runEvents [some [strLit ("hello")]]
      [Ev.set (some ⟨2, [], none, 0⟩), Ev.fire]).coord.highlightPage = some 2 ∧
    (runEvents [some [strLit ("hello")]]
      [Ev.set (some ⟨2, [], none, 0⟩), Ev.fire]).coord.marked = [] := by decide

/-- Claim C7 (amended): the entry point degrades without throwing: an
absent snippet on an existing page yields the page ring with no leaf
marked, as do an empty leaf list and a missing text layer; a target page
past the last page yields neither ring nor mark (the callback returns
early). -/
theorem c7_degraded_inputs (doc : List PageT) (t : HighlightTarget) :
    (t.snippet = none → (getPage doc t.page).isSome = true →
      (runEvents doc [Ev.set (some t), Ev.fire]).coord.highlightPage = some t.page ∧
      (runEvents doc [Ev.set (some t), Ev.fire]).coord.marked = []) ∧
    ((getPage doc t.page = some none ∨ getPage doc t.page = some (some [])) →
      (runEvents doc [Ev.set (some t), Ev.fire]).coord.highlightPage = some t.page ∧
      (runEvents doc [Ev.set (some t), Ev.fire]).coord.marked = []) ∧
    (getPage doc t.page = none →
      (runEvents doc [Ev.set (some t), Ev.fire]).coord.highlightPage = none ∧
      (runEvents doc [Ev.set (some t), Ev.fire]).coord.marked = []) := by
  obtain ⟨hm, hpend, hcl, hsc, hap, hring⟩ := runTimer_fields doc ⟨t.page, t.snippet⟩
    ⟨[], none, [], 1, if (getPage doc t.page).isSome then 1 else 0, 0⟩
  have hHP : (runEvents doc [Ev.set (some t), Ev.fire]).coord.highlightPage
      = timerRing doc ⟨t.page, t.snippet⟩ none := by
    rw [runEvents_set_fire]
    exact hring
  have hMK : (runEvents doc [Ev.set (some t), Ev.fire]).coord.marked
      = timerMarks doc ⟨t.page, t.snippet⟩ := by
    rw [runEvents_set_fire]
    simpa using hm
  refine ⟨?_, ?_, ?_⟩
  · intro hsn hpg
    obtain ⟨pg, hpg2⟩ := Option.isSome_iff_exists.mp hpg
    have hsn2 : (⟨t.page, t.snippet⟩ : PendingTimer).snippet = none := hsn
    have hanchor : (pageMatch pg (⟨t.page, t.snippet⟩ : PendingTimer).snippet).anchor = none := by
      rw [hsn2]
      exact (pageMatch_noSnippet pg).1
    have hmarks : (pageMatch pg (⟨t.page, t.snippet⟩ : PendingTimer).snippet).marked = [] := by
      rw [hsn2]
      exact (pageMatch_noSnippet pg).2
    exact ⟨by rw [hHP]; exact timerRing_fallback none hpg2 hanchor,
      by rw [hMK]; exact timerMarks_of_empty hpg2 hmarks⟩
  · intro hcase
    rcases hcase with hpg2 | hpg2
    · exact ⟨by rw [hHP]; exact timerRing_fallback none hpg2 (pageMatch_noLayer t.snippet).1,
        by rw [hMK]; exact timerMarks_of_empty hpg2 (pageMatch_noLayer t.snippet).2⟩
    · exact ⟨by rw [hHP]; exact timerRing_fallback none hpg2 (pageMatch_noSpans t.snippet).1,
        by rw [hMK]; exact timerMarks_of_empty hpg2 (pageMatch_noSpans t.snippet).2⟩
  · intro hpg2
    exact ⟨by rw [hHP]; exact timerRing_skip none hpg2,
      by rw [hMK]; exact timerMarks_skip hpg2⟩

theorem c7_degraded_witness :
    ((runEvents [some [strLit ("x")]]
        [Ev.set (some ⟨1, [], none, 0⟩), Ev.fire]).coord.highlightPage = some 1 ∧
     (runEvents [some [strLit ("x")]]
        [Ev.set (some ⟨1, [], none, 0⟩), Ev.fire]).coord.marked = []) ∧
    ((runEvents [none]
        [Ev.set (some ⟨1, [], some (strLit ("abc")), 0⟩), Ev.fire]).coord.highlightPage = some 1 ∧
     (runEvents [none]
        [Ev.set (some ⟨1, [], some (strLit ("abc")), 0⟩), Ev.fire]).coord.marked = []) ∧
    ((runEvents [some [strLit ("x")]]
        [Ev.set (some ⟨5, [], some (strLit ("abc")), 0⟩), Ev.fire]).coord.highlightPage = none ∧
     (runEvents [some [strLit ("x")]]
        [Ev.set (some ⟨5, [], some (strLit ("abc")), 0⟩), Ev.fire]).coord.marked = []) :=
  ⟨(c7_degraded_inputs [some [strLit ("x")]] ⟨1, [], none, 0⟩).1 (by decide) (by decide),
   (c7_degraded_inputs [none] ⟨1, [], some (strLit ("abc")), 0⟩).2.1 (Or.inl (by decide)),
   (c7_degraded_inputs [some [strLit ("x")]] ⟨5, [], some (strLit ("abc")), 0⟩).2.2 (by decide)⟩

/-- Claim C3 (code bug in the source): the 400 ms timer of a superseded
target is never cancelled (highlightClause stores no timer id and the
effect installs no cleanup), so after a second target arrives the stale
timer still fires and marks a leaf of page 1 on behalf of the superseded
target while the active target is page 2. -/
theorem c3_stale_timer_marks_superseded :
    (runEvents [some [strLit ("early termination fee")], some []]
        [Ev.set (some ⟨1, strLit ("A"), some (strLit ("termination")), 0⟩),
         Ev.set (some ⟨2, strLit ("B"), none, 1⟩), Ev.fire, Ev.fire]).current
      = some ⟨2, strLit ("B"), none, 1⟩ ∧
    (1, 0) ∈ (runEvents [some [strLit ("early termination fee")], some []]
        [Ev.set (some ⟨1, strLit ("A"), some (strLit ("termination")), 0⟩),
         Ev.set (some ⟨2, strLit ("B"), none, 1⟩), Ev.fire, Ev.fire]).coord.marked := by
  decide

/-- Claim C8: re-supplying a target with identical page, section and
snippet but a fresh nonce re-runs the whole sequence: clearHighlights runs
a second time, the timer body runs and scrolls a second time, and the same
leaves are re-marked, so the observable side effects happen twice. -/
theorem c8_new_nonce_reruns (doc : List PageT) (t1 t2 : HighlightTarget)
    (hpage : t1.page = t2.page) (_hsec : t1.section_ = t2.section_)
    (hsn : t1.snippet = t2.snippet) (hnonce : t1.nonce ≠ t2.nonce) :
    (runEvents doc [Ev.set (some t1), Ev.fire, Ev.set (some t2), Ev.fire]).coord.clearCount = 2 ∧
    (runEvents doc [Ev.set (some t1), Ev.fire]).coord.clearCount = 1 ∧
    (runEvents doc [Ev.set (some t1), Ev.fire, Ev.set (some t2), Ev.fire]).coord.applyCount
      = 2 * (runEvents doc [Ev.set (some t1), Ev.fire]).coord.applyCount ∧
    (runEvents doc [Ev.set (some t1), Ev.fire, Ev.set (some t2), Ev.fire]).coord.scrollCount
      = 2 * (runEvents doc [Ev.set (some t1), Ev.fire]).coord.scrollCount ∧
    (runEvents doc [Ev.set (some t1), Ev.fire, Ev.set (some t2), Ev.fire]).coord.marked
      = (runEvents doc [Ev.set (some t1), Ev.fire]).coord.marked := by
  have hneq : ¬ ((some t1 : Option HighlightTarget) = some t2) := by
    intro h
    apply hnonce
    have h2 : t1 = t2 := by injection h
    rw [h2]
  rcases hg : getPage doc t1.page with _ | pg
  · simp [runEvents, dispatch, sysInit, newTarget, clearTarget, runTimer,
      hneq, ← hpage, ← hsn, hg]
  · rcases ha : (pageMatch pg t1.snippet).anchor with _ | a
    · simp [runEvents, dispatch, sysInit, newTarget, clearTarget, runTimer,
        hneq, ← hpage, ← hsn, hg, ha]
    · simp [runEvents, dispatch, sysInit, newTarget, clearTarget, runTimer,
        hneq, ← hpage, ← hsn, hg, ha]

theorem c8_new_nonce_witness :
    (runEvents [some [strLit ("alpha beta")]]
        [Ev.set (some ⟨1, [], some (strLit ("beta")), 0⟩), Ev.fire,
         Ev.set (some ⟨1, [], some (strLit ("beta")), 1⟩), Ev.fire]).coord.clearCount = 2 ∧
    (runEvents [some [strLit ("alpha beta")]]
        [Ev.set (some ⟨1, [], some (strLit ("beta")), 0⟩), Ev.fire]).coord.clearCount = 1 ∧
    (runEvents [some [strLit ("alpha beta")]]
        [Ev.set (some ⟨1, [], some (strLit ("beta")), 0⟩), Ev.fire,
         Ev.set (some ⟨1, [], some (strLit ("beta")), 1⟩), Ev.fire]).coord.applyCount
      = 2 * (runEvents [some [strLit ("alpha beta")]]
        [Ev.set (some ⟨1, [], some (strLit ("beta")), 0⟩), Ev.fire]).coord.applyCount ∧
    (runEvents [some [strLit ("alpha beta")]]
        [Ev.set (some ⟨1, [], some (strLit ("beta")), 0⟩), Ev.fire,
         Ev.set (some ⟨1, [], some (strLit ("beta")), 1⟩), Ev.fire]).coord.scrollCount
      = 2 * (runEvents [some [strLit ("alpha beta")]]
        [Ev.set (some ⟨1, [], some (strLit ("beta")), 0⟩), Ev.fire]).coord.scrollCount ∧
    (runEvents [some [strLit ("alpha beta")]]
        [Ev.set (some ⟨1, [], some (strLit ("beta")), 0⟩), Ev.fire,
         Ev.set (some ⟨1, [], some (strLit ("beta")), 1⟩), Ev.fire]).coord.marked
      = (runEvents [some [strLit ("alpha beta")]]
        [Ev.set (some ⟨1, [], some (strLit ("beta")), 0⟩), Ev.fire]).coord.marked :=
  c8_new_nonce_reruns [some [strLit ("alpha beta")]]
    ⟨1, [], some (strLit ("beta")), 0⟩ ⟨1, [], some (strLit ("beta")), 1⟩
    rfl rfl rfl (by decide)

end LoanLens
